import Mathlib

/-!
Verification development for an OpenCL rank sort (src/main.rs).

The program sorts an array of 32-bit integers on an accelerator in two kernel
stages: `compare_kernel` counts, for every index `i`, how many indices `j`
satisfy `source[j] < source[i]` (one atomic increment per ordered pair with
`source[i] > source[j]`), and `assign_kernel` scatters each element into the
results array at slot `counts[id]`, probing forward with an atomic
compare-and-swap loop on collisions (sentinel `-1` marks a free slot).
A sequential `merge_sort` serves as host-side reference, and the host
orchestrates buffer uploads, the two kernel launches and the read-back with
explicit event dependencies.

Values are modelled as `ℤ`: the kernels only compare and copy 32-bit values
(no arithmetic on them), counter increments are bounded by the array length,
and probe indices stay below the array length, so no 32-bit overflow is
reachable and the integer model is faithful.
-/

/-- Element of the source array at index `i` (out-of-range reads default). -/
def srcAt (srcL : List ℤ) (i : ℕ) : ℤ := srcL.getD i 0

/-- Number of elements of the list strictly below `v`: the rank that
`compare_kernel` computes for an element of value `v`. -/
def rnk (srcL : List ℤ) (v : ℤ) : ℕ := srcL.countP (fun x => decide (x < v))

/-- Multiplicity of the value `v` in the source array. -/
def mlt (srcL : List ℤ) (v : ℤ) : ℕ := srcL.count v

/-- One comparison of `compare_kernel` for the ordered index pair `ij`:
when `source[i] > source[j]` the counter of `i` is atomically incremented. -/
def compareStep (srcL : List ℤ) (counts : List ℕ) (ij : ℕ × ℕ) : List ℕ :=
  if srcAt srcL ij.1 > srcAt srcL ij.2 then
    counts.set ij.1 (counts.getD ij.1 0 + 1)
  else counts

/-- The compare phase: the `N × N` comparisons of `compare_kernel` executed
in the order given by `ps` (any interleaving is some order of the pairs). -/
def runCompare (srcL : List ℤ) (ps : List (ℕ × ℕ)) (counts : List ℕ) : List ℕ :=
  ps.foldl (compareStep srcL) counts

/-- The full `N × N` grid of ordered index pairs over which `compare_kernel`
is launched. -/
def allPairs (N : ℕ) : List (ℕ × ℕ) :=
  (List.range N).flatMap (fun i => (List.range N).map (fun j => (i, j)))

/-- Pointwise update of a function on `ℕ`, modelling one store into a device
buffer. -/
def upd {α : Type} (f : ℕ → α) (a : ℕ) (v : α) : ℕ → α :=
  fun x => if x = a then v else f x

/-- State of the scatter phase: the results buffer, and for each work item
`some p` when it is still running with its next probe at absolute slot `p`,
or `none` when its loop has exited. -/
structure AState where
  res : ℕ → ℤ
  thr : ℕ → Option ℕ

/-- One atomic step of some work item of `assign_kernel`.  A running item at
probe slot `p` either finds the sentinel `-1` and installs its value
(`atomic_cmpxchg` succeeds, the do-while exits), or finds the slot occupied
and retries at `p + 1` when that is still below the bound
`get_global_size(0) = N`, or exits at the bound.  Steps of distinct work items
interleave arbitrarily. -/
inductive AStep (src : ℕ → ℤ) (N : ℕ) : AState → AState → Prop where
  | claim : ∀ σ id p, id < N → σ.thr id = some p → σ.res p = -1 →
      AStep src N σ ⟨upd σ.res p (src id), upd σ.thr id none⟩
  | fail : ∀ σ id p, id < N → σ.thr id = some p → σ.res p ≠ -1 → p + 1 < N →
      AStep src N σ ⟨σ.res, upd σ.thr id (some (p + 1))⟩
  | drop : ∀ σ id p, id < N → σ.thr id = some p → σ.res p ≠ -1 → ¬ p + 1 < N →
      AStep src N σ ⟨σ.res, upd σ.thr id none⟩

/-- Start of the scatter phase: the results buffer holds the sentinel `-1`
everywhere, and work item `id` is about to make its first probe at slot
`counts[id]`. -/
def initState (counts : ℕ → ℕ) (N : ℕ) : AState :=
  ⟨fun _ => -1, fun id => if id < N then some (counts id) else none⟩

/-- States reachable by interleaving the work items of `assign_kernel` from
the start of the scatter phase. -/
def Reaches (src : ℕ → ℤ) (counts : ℕ → ℕ) (N : ℕ) (σ : AState) : Prop :=
  Relation.ReflTransGen (AStep src N) (initState counts N) σ

/-- The scatter phase is finished: every work item's loop has exited. -/
def Terminal (N : ℕ) (σ : AState) : Prop :=
  ∀ id, id < N → σ.thr id = none

/-- The results buffer read back by the host: its first `N` cells. -/
def resList (N : ℕ) (σ : AState) : List ℤ :=
  (List.range N).map σ.res

/-- Number of iterations the do-while loop of `assign_kernel` executes for a
work item whose first probe is at slot `p`, when `occ q` tells whether the
compare-and-swap at slot `q` fails (slot occupied).  Each slot is probed at
most once, so per-slot outcomes model any concurrent behaviour. -/
def probeIters (occ : ℕ → Bool) (N : ℕ) (p : ℕ) : ℕ :=
  if occ p then (if h : p + 1 < N then 1 + probeIters occ N (p + 1) else 1)
  else 1
termination_by N - p
decreasing_by omega

/-- The reference `merge` of src/main.rs: repeatedly moves the front of
`left` when it is strictly below the front of `right`, otherwise the front of
`right`, then drains the leftover run. -/
def merge : List ℤ → List ℤ → List ℤ
  | [], ys => ys
  | x :: xs, [] => x :: xs
  | x :: xs, y :: ys =>
      if x < y then x :: merge xs (y :: ys) else y :: merge (x :: xs) ys
termination_by l r => l.length + r.length
decreasing_by all_goals (simp only [List.length_cons]; omega)

/-- The reference `merge_sort` of src/main.rs: split at the midpoint,
recursively sort the halves, merge. -/
def merge_sort (vec : List ℤ) : List ℤ :=
  if h : vec.length < 2 then vec
  else
    merge (merge_sort (vec.take (vec.length / 2)))
      (merge_sort (vec.drop (vec.length / 2)))
termination_by vec.length
decreasing_by
  · simp [List.length_take]; omega
  · simp [List.length_drop]; omega

/-- The six orchestration stages of one sort call. -/
inductive OStage where
  | srcUpload | cntUpload | resUpload | compareK | assignK | readBack
deriving DecidableEq, Fintype

/-- The explicit wait lists the host attaches to each stage: the compare
launch waits on the source and counts uploads, the assign launch waits on the
results upload and the compare completion, and the read-back waits on the
events of both kernels. -/
def waits : OStage → List OStage
  | OStage.compareK => [OStage.srcUpload, OStage.cntUpload]
  | OStage.assignK => [OStage.resUpload, OStage.compareK]
  | OStage.readBack => [OStage.compareK, OStage.assignK]
  | _ => []

/-- The fallible host operations of the sort call, in program order. -/
inductive OclOp where
  | buildCompareProg | createCompareKernel | buildAssignProg | createAssignKernel
  | mkInputBuf | mkCountBuf | mkResultBuf
  | writeInput | writeCount | writeResult
  | enqCompare | enqAssign | enqRead | waitRead
deriving DecidableEq, Fintype

/-- Error value with which the sort call aborts.  The ten creation, build
and buffer-write operations abort through `expect`, whose panic message is
distinct per call site and names the stage; `panicMsg op` stands for the
message of operation `op`.  The enqueue of each kernel, the enqueue of the
read-back and the final wait (lines 179, 191, 197 and 199 of src/main.rs)
instead propagate the library error with the `?` operator: `clError c`
carries only the OpenCL status code `c` and no stage identity. -/
inductive OclFailure where
  | panicMsg : OclOp → OclFailure
  | clError : ℤ → OclFailure
deriving DecidableEq

/-- The error produced when operation `op` fails, `c` being the OpenCL
status the failing call reports. -/
def failureOf (c : ℤ) : OclOp → OclFailure
  | OclOp.enqCompare => OclFailure.clError c
  | OclOp.enqAssign => OclFailure.clError c
  | OclOp.enqRead => OclFailure.clError c
  | OclOp.waitRead => OclFailure.clError c
  | op => OclFailure.panicMsg op

/-- The host pipeline: each fallible operation either succeeds (per the
environment `ok`) and control reaches the next one, or aborts the whole
call, as the chain of `expect` and `?` in `main` does; `code op` is the
OpenCL status the call for `op` would report on failure.  On success the
read-back data is returned. -/
def runOrchestration (ok : OclOp → Bool) (code : OclOp → ℤ) (res : List ℤ) :
    Except OclFailure (List ℤ) :=
  if ok OclOp.buildCompareProg then
  if ok OclOp.createCompareKernel then
  if ok OclOp.buildAssignProg then
  if ok OclOp.createAssignKernel then
  if ok OclOp.mkInputBuf then
  if ok OclOp.mkCountBuf then
  if ok OclOp.mkResultBuf then
  if ok OclOp.writeInput then
  if ok OclOp.writeCount then
  if ok OclOp.writeResult then
  if ok OclOp.enqCompare then
  if ok OclOp.enqAssign then
  if ok OclOp.enqRead then
  if ok OclOp.waitRead then Except.ok res
  else Except.error (failureOf (code OclOp.waitRead) OclOp.waitRead)
  else Except.error (failureOf (code OclOp.enqRead) OclOp.enqRead)
  else Except.error (failureOf (code OclOp.enqAssign) OclOp.enqAssign)
  else Except.error (failureOf (code OclOp.enqCompare) OclOp.enqCompare)
  else Except.error (failureOf (code OclOp.writeResult) OclOp.writeResult)
  else Except.error (failureOf (code OclOp.writeCount) OclOp.writeCount)
  else Except.error (failureOf (code OclOp.writeInput) OclOp.writeInput)
  else Except.error (failureOf (code OclOp.mkResultBuf) OclOp.mkResultBuf)
  else Except.error (failureOf (code OclOp.mkCountBuf) OclOp.mkCountBuf)
  else Except.error (failureOf (code OclOp.mkInputBuf) OclOp.mkInputBuf)
  else Except.error (failureOf (code OclOp.createAssignKernel) OclOp.createAssignKernel)
  else Except.error (failureOf (code OclOp.buildAssignProg) OclOp.buildAssignProg)
  else Except.error (failureOf (code OclOp.createCompareKernel) OclOp.createCompareKernel)
  else Except.error (failureOf (code OclOp.buildCompareProg) OclOp.buildCompareProg)

/-- The duration `main` reports for the parallel sort, given the (start, end)
profiling timestamps of the two kernel events.  Lines 214-215 of src/main.rs
read `compare_kernel_event` for the assign timestamps as well, so the second
event is ignored. -/
def parallelDuration (compareEvt assignEvt : ℕ × ℕ) : ℕ :=
  let compare_start_time := compareEvt.1
  let compare_end_time := compareEvt.2
  let assign_start_time := compareEvt.1
  let assign_end_time := compareEvt.2
  (compare_end_time - compare_start_time) + (assign_end_time - assign_start_time)

/-- The duration the specification describes: each kernel's device-time delta
taken from that kernel's own profiling event, summed. -/
def specDuration (compareEvt assignEvt : ℕ × ℕ) : ℕ :=
  (compareEvt.2 - compareEvt.1) + (assignEvt.2 - assignEvt.1)

/-- An in-range read of the source array is a member of it. -/
lemma srcAt_mem (srcL : List ℤ) (i : ℕ) (h : i < srcL.length) : srcAt srcL i ∈ srcL := by
  have : srcAt srcL i = srcL[i] := by
    simp [srcAt, List.getD_eq_getElem?_getD, List.getElem?_eq_getElem h]
  rw [this]
  exact List.getElem_mem h

/-- An in-range read of the source array is the corresponding element. -/
lemma srcAt_eq_getElem (srcL : List ℤ) (i : ℕ) (h : i < srcL.length) :
    srcAt srcL i = srcL[i] := by
  simp [srcAt, List.getD_eq_getElem?_getD, List.getElem?_eq_getElem h]

/-- Rank plus multiplicity counts the elements at most `v`. -/
lemma rnk_add_mlt (srcL : List ℤ) (v : ℤ) :
    rnk srcL v + mlt srcL v = srcL.countP (fun x => decide (x ≤ v)) := by
  induction srcL with
  | nil => rfl
  | cons x t ih =>
      simp only [rnk, mlt, List.countP_cons, List.count_cons] at *
      rcases lt_trichotomy x v with h | h | h
      · have h1 : x ≤ v := le_of_lt h
        have h2 : ¬ x = v := ne_of_lt h
        simp [h, h1, h2]
        omega
      · subst h
        simp
        omega
      · have h1 : ¬ x < v := not_lt_of_gt h
        have h2 : ¬ x = v := (ne_of_gt h)
        have h3 : ¬ x ≤ v := not_le_of_gt h
        simp [h1, h2, h3]
        omega

/-- A value's run of result slots ends within the array bound. -/
lemma rnk_add_mlt_le (srcL : List ℤ) (v : ℤ) :
    rnk srcL v + mlt srcL v ≤ srcL.length := by
  rw [rnk_add_mlt]; exact List.countP_le_length _

/-- The run of a smaller value ends before the run of a larger one starts. -/
lemma run_le_run (srcL : List ℤ) (v w : ℤ) (hvw : v < w) :
    rnk srcL v + mlt srcL v ≤ rnk srcL w := by
  rw [rnk_add_mlt]
  apply List.countP_mono_left
  intro x _ hx
  simp only [decide_eq_true_eq] at *
  omega

/-- Runs of distinct values are disjoint slot ranges. -/
lemma runs_disjoint (srcL : List ℤ) (v w : ℤ) (hne : v ≠ w) (q : ℕ)
    (h1 : rnk srcL v ≤ q) (h2 : q < rnk srcL v + mlt srcL v)
    (h3 : rnk srcL w ≤ q) (h4 : q < rnk srcL w + mlt srcL w) : False := by
  rcases lt_or_gt_of_ne hne with h | h
  · have := run_le_run srcL v w h; omega
  · have := run_le_run srcL w v h; omega

/-- The rank of an element of the array is a valid slot index. -/
lemma rnk_src_lt (srcL : List ℤ) (i : ℕ) (hi : i < srcL.length) :
    rnk srcL (srcAt srcL i) < srcL.length := by
  have hsplit := List.length_eq_countP_add_countP
    (p := fun x => decide (x < srcAt srcL i)) (l := srcL)
  have hpos : 0 < srcL.countP (fun x => ¬ decide (x < srcAt srcL i)) := by
    rw [List.countP_pos_iff]
    exact ⟨srcAt srcL i, srcAt_mem srcL i hi, by simp⟩
  simp only [rnk]
  omega

/-- Every element of the array occurs in it at least once. -/
lemma mlt_src_pos (srcL : List ℤ) (i : ℕ) (hi : i < srcL.length) :
    1 ≤ mlt srcL (srcAt srcL i) :=
  List.count_pos_iff.mpr (srcAt_mem srcL i hi)

/-- Reading every index in order reproduces the array. -/
lemma map_srcAt_range (srcL : List ℤ) :
    (List.range srcL.length).map (fun i => srcAt srcL i) = srcL := by
  induction srcL with
  | nil => rfl
  | cons x t ih =>
      simp only [List.length_cons, List.range_succ_eq_map, List.map_cons, List.map_map]
      have hhead : srcAt (x :: t) 0 = x := rfl
      have hstep : ∀ a ∈ List.range t.length,
          ((fun i => srcAt (x :: t) i) ∘ Nat.succ) a = srcAt t a := by
        intro a _
        simp [srcAt, Function.comp]
      rw [hhead, List.map_congr_left hstep, ih]

/-- Counting over indices is counting over elements. -/
lemma countP_range_srcAt (srcL : List ℤ) (p : ℤ → Bool) :
    (List.range srcL.length).countP (fun i => p (srcAt srcL i)) = srcL.countP p := by
  conv_rhs => rw [← map_srcAt_range srcL]
  rw [List.countP_map]
  rfl

/-- Counting the indices below `q` in `range n`. -/
lemma countP_range_lt (q n : ℕ) (h : q ≤ n) :
    (List.range n).countP (fun j => decide (j < q)) = q := by
  rw [show n = q + (n - q) by omega, List.range_add, List.countP_append]
  have h1 : (List.range q).countP (fun j => decide (j < q)) = q := by
    rw [List.countP_eq_length.mpr]
    · exact List.length_range q
    · intro a ha
      simp only [List.mem_range] at ha
      simpa using ha
  have h2 : ((List.range (n - q)).map (q + ·)).countP (fun j => decide (j < q)) = 0 := by
    rw [List.countP_eq_zero]
    intro a ha
    simp only [List.mem_map, List.mem_range] at ha
    obtain ⟨b, _, rfl⟩ := ha
    simp only [decide_eq_true_eq]
    omega
  omega

/-- Filter cardinality over `Finset.range` is `countP` over `List.range`. -/
lemma card_filter_range (n : ℕ) (p : ℕ → Prop) [DecidablePred p] :
    ((Finset.range n).filter p).card = (List.range n).countP (fun i => decide (p i)) := by
  induction n with
  | zero => rfl
  | succ m ih =>
      rw [Finset.range_succ, Finset.filter_insert, List.range_succ, List.countP_append]
      have hone : (List.countP (fun i => decide (p i)) [m]) = if p m then 1 else 0 := by
        by_cases hp : p m <;> simp [List.countP_cons, hp]
      by_cases hp : p m
      · rw [if_pos hp, Finset.card_insert_of_not_mem (by simp), hone, if_pos hp, ih]
      · rw [if_neg hp, hone, if_neg hp, ih, Nat.add_zero]

/-- Counting indices whose element equals `v` counts occurrences of `v`. -/
lemma countP_range_eq_count (srcL : List ℤ) (v : ℤ) :
    (List.range srcL.length).countP (fun i => decide (srcAt srcL i = v)) = srcL.count v := by
  rw [countP_range_srcAt srcL (fun x => decide (x = v)), List.count_eq_countP]
  apply List.countP_congr
  intro x _
  simp

/-- In a sorted list, the element at position `q` has its run of equal values
covering position `q`: its rank is at most `q` and `q` lies before the end of
the run. -/
lemma sorted_run_bounds (L : List ℤ) (hs : L.Sorted (fun a b => a ≤ b)) (q : ℕ)
    (hq : q < L.length) :
    rnk L (srcAt L q) ≤ q ∧ q < rnk L (srcAt L q) + mlt L (srcAt L q) := by
  have hpair : ∀ i j, i < L.length → j < L.length → i ≤ j → srcAt L i ≤ srcAt L j := by
    intro i j h1 h2 hij
    rw [srcAt_eq_getElem L i h1, srcAt_eq_getElem L j h2]
    rcases Nat.eq_or_lt_of_le hij with rfl | hlt
    · exact le_refl _
    · exact List.pairwise_iff_getElem.mp hs i j h1 h2 hlt
  constructor
  · have hr : rnk L (srcAt L q)
        = (List.range L.length).countP (fun j => decide (srcAt L j < srcAt L q)) :=
      (countP_range_srcAt L (fun x => decide (x < srcAt L q))).symm
    rw [hr]
    have hmono : (List.range L.length).countP (fun j => decide (srcAt L j < srcAt L q))
        ≤ (List.range L.length).countP (fun j => decide (j < q)) := by
      apply List.countP_mono_left
      intro j hj hsrc
      simp only [List.mem_range] at hj
      simp only [decide_eq_true_eq] at *
      by_contra hge
      exact absurd (hpair q j hq hj (by omega)) (by omega)
    rw [countP_range_lt q L.length (le_of_lt hq)] at hmono
    exact hmono
  · rw [rnk_add_mlt, ← countP_range_srcAt L (fun x => decide (x ≤ srcAt L q))]
    have hmono : (List.range L.length).countP (fun j => decide (j < q + 1))
        ≤ (List.range L.length).countP (fun j => decide (srcAt L j ≤ srcAt L q)) := by
      apply List.countP_mono_left
      intro j hj hlt
      simp only [List.mem_range] at hj
      simp only [decide_eq_true_eq] at *
      exact hpair j q hj hq (by omega)
    rw [countP_range_lt (q + 1) L.length (by omega)] at hmono
    omega

/-- Writing a counter slot and reading it back. -/
lemma getD_set_self (l : List ℕ) (i v : ℕ) (h : i < l.length) :
    (l.set i v).getD i 0 = v := by
  simp [List.getD_eq_getElem?_getD, List.getElem?_set_self (by simpa using h)]

/-- Writing one counter slot leaves the others unchanged. -/
lemma getD_set_ne (l : List ℕ) (j i v : ℕ) (h : j ≠ i) :
    (l.set j v).getD i 0 = l.getD i 0 := by
  simp [List.getD_eq_getElem?_getD, List.getElem?_set_ne h]

/-- The compare phase never changes the length of the counts buffer. -/
lemma runCompare_length (srcL : List ℤ) (ps : List (ℕ × ℕ)) :
    ∀ cs : List ℕ, (runCompare srcL ps cs).length = cs.length := by
  induction ps with
  | nil => intro cs; rfl
  | cons ij ps ih =>
      intro cs
      show (runCompare srcL ps (compareStep srcL cs ij)).length = cs.length
      rw [ih (compareStep srcL cs ij)]
      unfold compareStep
      split <;> simp

/-- Running any sequence of comparisons adds, to each counter, the number of
executed pairs that target it and compare greater. -/
lemma runCompare_getD (srcL : List ℤ) (ps : List (ℕ × ℕ)) :
    ∀ (cs : List ℕ) (i : ℕ), i < cs.length →
    (runCompare srcL ps cs).getD i 0 = cs.getD i 0 +
      ps.countP (fun ij => decide (ij.1 = i ∧ srcAt srcL ij.2 < srcAt srcL ij.1)) := by
  induction ps with
  | nil => intro cs i _; simp [runCompare]
  | cons ij ps ih =>
      intro cs i hi
      have hlen : i < (compareStep srcL cs ij).length := by
        unfold compareStep; split <;> simpa using hi
      have hfold : runCompare srcL (ij :: ps) cs = runCompare srcL ps (compareStep srcL cs ij) := rfl
      rw [hfold, ih (compareStep srcL cs ij) i hlen, List.countP_cons]
      have hstep : (compareStep srcL cs ij).getD i 0 = cs.getD i 0 +
          if (ij.1 = i ∧ srcAt srcL ij.2 < srcAt srcL ij.1) then 1 else 0 := by
        unfold compareStep
        by_cases hc : srcAt srcL ij.2 < srcAt srcL ij.1
        · rw [if_pos hc]
          by_cases hij : ij.1 = i
          · subst hij
            rw [getD_set_self cs ij.1 _ (by omega), if_pos ⟨rfl, hc⟩]
          · rw [getD_set_ne cs ij.1 i _ hij, if_neg (by tauto)]
            omega
        · rw [if_neg hc, if_neg (by tauto)]
          omega
      rw [hstep]
      by_cases hp : (ij.1 = i ∧ srcAt srcL ij.2 < srcAt srcL ij.1) <;> simp [hp] <;> omega

/-- Counting over a flattened list is summing the per-block counts. -/
lemma countP_flatMap {α β : Type} (l : List α) (f : α → List β) (p : β → Bool) :
    (l.flatMap f).countP p = (l.map (fun a => (f a).countP p)).sum := by
  induction l with
  | nil => rfl
  | cons a l ih => simp [List.flatMap_cons, List.countP_append, ih]

/-- A sum over `range N` of a map vanishing away from `i < N` is its value
at `i`. -/
lemma sum_map_range_single (N i : ℕ) (g : ℕ → ℕ) (hi : i < N)
    (hz : ∀ a, a ≠ i → g a = 0) : ((List.range N).map g).sum = g i := by
  induction N with
  | zero => omega
  | succ m ih =>
      rw [List.range_succ, List.map_append, List.sum_append]
      by_cases him : i = m
      · subst him
        have hpre : ((List.range i).map g).sum = 0 := by
          apply List.sum_eq_zero
          intro x hx
          simp only [List.mem_map, List.mem_range] at hx
          obtain ⟨a, ha, rfl⟩ := hx
          exact hz a (by omega)
        simp [hpre]
      · have hm : g m = 0 := hz m (fun h => him h.symm)
        rw [ih (by omega)]
        simp [hm]

/-- Over the full comparison grid, the pairs targeting row `i` that compare
greater are exactly the indices whose element is smaller. -/
lemma countP_allPairs (srcL : List ℤ) (i N : ℕ) (hi : i < N) :
    (allPairs N).countP (fun ij => decide (ij.1 = i ∧ srcAt srcL ij.2 < srcAt srcL ij.1))
      = (List.range N).countP (fun j => decide (srcAt srcL j < srcAt srcL i)) := by
  unfold allPairs
  rw [countP_flatMap]
  have hg0 : ∀ a, a ≠ i → ((List.range N).map (fun j => (a, j))).countP
      (fun ij => decide (ij.1 = i ∧ srcAt srcL ij.2 < srcAt srcL ij.1)) = 0 := by
    intro a ha
    rw [List.countP_map, List.countP_eq_zero]
    intro j _
    simp [ha]
  have hgi : ((List.range N).map (fun j => (i, j))).countP
      (fun ij => decide (ij.1 = i ∧ srcAt srcL ij.2 < srcAt srcL ij.1))
      = (List.range N).countP (fun j => decide (srcAt srcL j < srcAt srcL i)) := by
    rw [List.countP_map]
    apply List.countP_congr
    intro j _
    simp
  rw [sum_map_range_single N i _ hi hg0, hgi]

/-- The compare phase, run in any order over the full grid on zeroed
counters, computes each element's rank. -/
lemma runCompare_allPairs (srcL : List ℤ) (ps : List (ℕ × ℕ))
    (hps : ps.Perm (allPairs srcL.length)) (i : ℕ) (hi : i < srcL.length) :
    (runCompare srcL ps (List.replicate srcL.length 0)).getD i 0
      = rnk srcL (srcAt srcL i) := by
  rw [runCompare_getD srcL ps _ i (by simpa using hi)]
  have hrep : (List.replicate srcL.length (0 : ℕ)).getD i 0 = 0 := by
    simp [List.getD_eq_getElem?_getD, List.getElem?_replicate, hi]
  rw [hrep, hps.countP_eq, countP_allPairs srcL i _ hi,
    countP_range_srcAt srcL (fun x => decide (x < srcAt srcL i))]
  exact Nat.zero_add _

/-- Merging is a permutation of concatenation (fuel-indexed form). -/
lemma merge_perm_aux (n : ℕ) : ∀ xs ys : List ℤ, xs.length + ys.length ≤ n →
    (merge xs ys).Perm (xs ++ ys) := by
  induction n with
  | zero =>
      intro xs ys h
      have hx : xs = [] := List.eq_nil_of_length_eq_zero (by omega)
      have hy : ys = [] := List.eq_nil_of_length_eq_zero (by omega)
      subst hx; subst hy
      simp [merge]
  | succ m ih =>
      intro xs ys h
      match xs, ys with
      | [], ys => simp [merge]
      | x :: xs, [] => simp [merge]
      | x :: xs, y :: ys =>
          simp only [merge]
          by_cases hlt : x < y
          · rw [if_pos hlt]
            have hp := ih xs (y :: ys) (by simp at h ⊢; omega)
            exact (hp.cons x)
          · rw [if_neg hlt]
            have hp := ih (x :: xs) ys (by simp at h ⊢; omega)
            exact ((hp.cons y).trans List.perm_middle.symm)

/-- The `merge` of src/main.rs returns a permutation of its two runs. -/
lemma merge_perm (xs ys : List ℤ) : (merge xs ys).Perm (xs ++ ys) :=
  merge_perm_aux (xs.length + ys.length) xs ys le_rfl

/-- Merging two sorted runs is sorted (fuel-indexed form). -/
lemma merge_sorted_aux (n : ℕ) : ∀ xs ys : List ℤ, xs.length + ys.length ≤ n →
    xs.Sorted (fun a b => a ≤ b) → ys.Sorted (fun a b => a ≤ b) →
    (merge xs ys).Sorted (fun a b => a ≤ b) := by
  induction n with
  | zero =>
      intro xs ys h _ _
      have hx : xs = [] := List.eq_nil_of_length_eq_zero (by omega)
      have hy : ys = [] := List.eq_nil_of_length_eq_zero (by omega)
      subst hx; subst hy
      simp [merge]
  | succ m ih =>
      intro xs ys h hx hy
      match xs, ys with
      | [], ys => simpa [merge] using hy
      | x :: xs, [] => simpa [merge] using hx
      | x :: xs, y :: ys =>
          rw [List.sorted_cons] at hx hy
          obtain ⟨hx1, hx2⟩ := hx
          obtain ⟨hy1, hy2⟩ := hy
          simp only [merge]
          by_cases hlt : x < y
          · rw [if_pos hlt, List.sorted_cons]
            constructor
            · intro b hb
              have hb' : b ∈ xs ++ y :: ys := (merge_perm xs (y :: ys)).mem_iff.mp hb
              simp only [List.mem_append, List.mem_cons] at hb'
              rcases hb' with hbxs | rfl | hbys
              · exact hx1 b hbxs
              · exact le_of_lt hlt
              · exact (le_of_lt hlt).trans (hy1 b hbys)
            · exact ih xs (y :: ys) (by simp at h ⊢; omega) hx2
                (List.sorted_cons.mpr ⟨hy1, hy2⟩)
          · rw [if_neg hlt, List.sorted_cons]
            have hyx : y ≤ x := le_of_not_lt hlt
            constructor
            · intro b hb
              have hb' : b ∈ (x :: xs) ++ ys := (merge_perm (x :: xs) ys).mem_iff.mp hb
              simp only [List.cons_append, List.mem_cons, List.mem_append] at hb'
              rcases hb' with rfl | hbxs | hbys
              · exact hyx
              · exact hyx.trans (hx1 b hbxs)
              · exact hy1 b hbys
            · exact ih (x :: xs) ys (by simp at h ⊢; omega)
                (List.sorted_cons.mpr ⟨hx1, hx2⟩) hy2

/-- The `merge` of src/main.rs turns two sorted runs into a sorted run. -/
lemma merge_sorted (xs ys : List ℤ) (hx : xs.Sorted (fun a b => a ≤ b))
    (hy : ys.Sorted (fun a b => a ≤ b)) : (merge xs ys).Sorted (fun a b => a ≤ b) :=
  merge_sorted_aux (xs.length + ys.length) xs ys le_rfl hx hy

/-- Lists of fewer than two elements are sorted. -/
lemma short_sorted (l : List ℤ) (h : l.length < 2) : l.Sorted (fun a b => a ≤ b) := by
  match l with
  | [] => simp
  | [x] => simp
  | x :: y :: t => simp at h; omega

/-- `merge_sort` sorts and permutes (fuel-indexed form). -/
lemma merge_sort_spec_aux (n : ℕ) : ∀ vec : List ℤ, vec.length ≤ n →
    (merge_sort vec).Perm vec ∧ (merge_sort vec).Sorted (fun a b => a ≤ b) := by
  induction n with
  | zero =>
      intro vec h
      have hv : vec = [] := List.eq_nil_of_length_eq_zero (by omega)
      subst hv
      rw [merge_sort]
      simp
  | succ m ih =>
      intro vec h
      by_cases h2 : vec.length < 2
      · rw [merge_sort, dif_pos h2]
        exact ⟨List.Perm.refl vec, short_sorted vec h2⟩
      · rw [merge_sort, dif_neg h2]
        have hlt : vec.length / 2 < vec.length := by omega
        have hlen1 : (vec.take (vec.length / 2)).length ≤ m := by
          simp [List.length_take]
          omega
        have hlen2 : (vec.drop (vec.length / 2)).length ≤ m := by
          simp [List.length_drop]
          omega
        obtain ⟨hp1, hs1⟩ := ih (vec.take (vec.length / 2)) hlen1
        obtain ⟨hp2, hs2⟩ := ih (vec.drop (vec.length / 2)) hlen2
        refine ⟨?_, merge_sorted _ _ hs1 hs2⟩
        have hmp := merge_perm (merge_sort (vec.take (vec.length / 2)))
          (merge_sort (vec.drop (vec.length / 2)))
        have happ := hp1.append hp2
        have hta : vec.take (vec.length / 2) ++ vec.drop (vec.length / 2) = vec :=
          List.take_append_drop _ vec
        exact hmp.trans (happ.trans (by rw [hta]))

/-- The reference `merge_sort` returns a permutation of its input. -/
lemma merge_sort_perm (vec : List ℤ) : (merge_sort vec).Perm vec :=
  (merge_sort_spec_aux vec.length vec le_rfl).1

/-- The reference `merge_sort` returns a sorted list. -/
lemma merge_sort_sorted (vec : List ℤ) : (merge_sort vec).Sorted (fun a b => a ≤ b) :=
  (merge_sort_spec_aux vec.length vec le_rfl).2

/-- The source buffer of the kernels as a function of the work item id. -/
def srcF (srcL : List ℤ) : ℕ → ℤ := fun i => srcAt srcL i

/-- The counts buffer produced by the compare phase, as a function. -/
def cntF (srcL : List ℤ) : ℕ → ℕ := fun i => rnk srcL (srcAt srcL i)

/-- Invariant of the scatter phase.  Occupied result slots lie inside the run
of their value; every running work item of value `v` probes at or after
`rnk v`, within bounds, with all earlier slots of its probe window occupied;
and for each non-sentinel value, occupied slots plus running work items of
that value account exactly for its multiplicity. -/
structure AInv (srcL : List ℤ) (σ : AState) : Prop where
  resRun : ∀ q, σ.res q ≠ -1 →
    rnk srcL (σ.res q) ≤ q ∧ q < rnk srcL (σ.res q) + mlt srcL (σ.res q)
  thrB : ∀ id p, σ.thr id = some p →
    id < srcL.length ∧ rnk srcL (srcAt srcL id) ≤ p ∧ p < srcL.length
  thrP : ∀ id p, σ.thr id = some p →
    ∀ q, rnk srcL (srcAt srcL id) ≤ q → q < p → σ.res q ≠ -1
  bal : ∀ v : ℤ, v ≠ -1 →
    ((Finset.range srcL.length).filter (fun q => σ.res q = v)).card
      + ((Finset.range srcL.length).filter
          (fun id => σ.thr id ≠ none ∧ srcAt srcL id = v)).card
      = mlt srcL v

/-- An occupied slot inside the run of `v` holds exactly `v`. -/
lemma slot_value (srcL : List ℤ) (σ : AState) (hinv : AInv srcL σ) (v : ℤ) (q : ℕ)
    (hne : σ.res q ≠ -1) (h1 : rnk srcL v ≤ q) (h2 : q < rnk srcL v + mlt srcL v) :
    σ.res q = v := by
  by_contra hw
  obtain ⟨ha, hb⟩ := hinv.resRun q hne
  exact runs_disjoint srcL (σ.res q) v hw q ha hb h1 h2

/-- A running work item never probes beyond the end of its value's run. -/
lemma probe_in_run (srcL : List ℤ) (σ : AState) (hinv : AInv srcL σ) (id p : ℕ)
    (h : σ.thr id = some p) :
    p < rnk srcL (srcAt srcL id) + mlt srcL (srcAt srcL id) := by
  obtain ⟨hid, hrp, hpN⟩ := hinv.thrB id p h
  by_contra hge
  push_neg at hge
  have hmpos := mlt_src_pos srcL id hid
  by_cases hv : srcAt srcL id = -1
  · have hq : σ.res (rnk srcL (srcAt srcL id)) ≠ -1 :=
      hinv.thrP id p h (rnk srcL (srcAt srcL id)) le_rfl (by omega)
    have hval := slot_value srcL σ hinv (srcAt srcL id)
      (rnk srcL (srcAt srcL id)) hq le_rfl (by omega)
    exact hq (hval.trans hv)
  · have hsub : Finset.Ico (rnk srcL (srcAt srcL id))
        (rnk srcL (srcAt srcL id) + mlt srcL (srcAt srcL id)) ⊆
        (Finset.range srcL.length).filter (fun q => σ.res q = srcAt srcL id) := by
      intro q hq
      simp only [Finset.mem_Ico] at hq
      have hqlt : q < srcL.length :=
        lt_of_lt_of_le hq.2 (rnk_add_mlt_le srcL (srcAt srcL id))
      have hocc : σ.res q ≠ -1 := hinv.thrP id p h q hq.1 (by omega)
      have hval := slot_value srcL σ hinv (srcAt srcL id) q hocc hq.1 hq.2
      simp only [Finset.mem_filter, Finset.mem_range]
      exact ⟨hqlt, hval⟩
    have hcard := Finset.card_le_card hsub
    rw [Nat.card_Ico] at hcard
    have hact : 1 ≤ ((Finset.range srcL.length).filter
        (fun id' => σ.thr id' ≠ none ∧ srcAt srcL id' = srcAt srcL id)).card := by
      refine Finset.card_pos.mpr ⟨id, ?_⟩
      simp only [Finset.mem_filter, Finset.mem_range]
      exact ⟨hid, by rw [h]; simp, by trivial⟩
    have hbal := hinv.bal (srcAt srcL id) hv
    omega

/-- A successful compare-and-swap preserves the scatter invariant. -/
lemma AInv_claim (srcL : List ℤ) (σ : AState) (hinv : AInv srcL σ) (id p : ℕ)
    (hid : id < srcL.length) (hthr : σ.thr id = some p) (hres : σ.res p = -1) :
    AInv srcL ⟨upd σ.res p (srcF srcL id), upd σ.thr id none⟩ := by
  obtain ⟨hid', hrp, hpN⟩ := hinv.thrB id p hthr
  have hrun := probe_in_run srcL σ hinv id p hthr
  constructor
  · intro q hne
    dsimp only [upd] at hne ⊢
    by_cases hq : q = p
    · subst hq
      rw [if_pos rfl] at hne ⊢
      exact ⟨hrp, hrun⟩
    · rw [if_neg hq] at hne ⊢
      exact hinv.resRun q hne
  · intro id' p' hthr'
    dsimp only [upd] at hthr'
    by_cases hidq : id' = id
    · rw [if_pos hidq] at hthr'
      exact absurd hthr' (by simp)
    · rw [if_neg hidq] at hthr'
      exact hinv.thrB id' p' hthr'
  · intro id' p' hthr' q hq1 hq2
    dsimp only [upd] at hthr' ⊢
    by_cases hidq : id' = id
    · rw [if_pos hidq] at hthr'
      exact absurd hthr' (by simp)
    · rw [if_neg hidq] at hthr'
      have hold := hinv.thrP id' p' hthr' q hq1 hq2
      by_cases hq : q = p
      · subst hq
        exact absurd hres hold
      · rw [if_neg hq]
        exact hold
  · intro v hv
    dsimp only
    by_cases hval : srcAt srcL id = v
    · have hpnotin : p ∉ (Finset.range srcL.length).filter (fun q => σ.res q = v) := by
        simp only [Finset.mem_filter, Finset.mem_range, not_and]
        intro _
        rw [hres]
        exact fun hh => hv hh.symm
      have hcl : (Finset.range srcL.length).filter
            (fun q => upd σ.res p (srcF srcL id) q = v)
          = insert p ((Finset.range srcL.length).filter (fun q => σ.res q = v)) := by
        ext q
        simp only [Finset.mem_insert, Finset.mem_filter, Finset.mem_range, upd]
        by_cases hq : q = p
        · subst hq
          simp [srcF, hpN, hval]
        · simp [hq]
      have hidnotin : id ∉ (Finset.range srcL.length).filter
          (fun id' => upd σ.thr id none id' ≠ none ∧ srcAt srcL id' = v) := by
        simp [upd]
      have hacl : (Finset.range srcL.length).filter
            (fun id' => σ.thr id' ≠ none ∧ srcAt srcL id' = v)
          = insert id ((Finset.range srcL.length).filter
            (fun id' => upd σ.thr id none id' ≠ none ∧ srcAt srcL id' = v)) := by
        ext id'
        simp only [Finset.mem_insert, Finset.mem_filter, Finset.mem_range, upd]
        by_cases hq : id' = id
        · subst hq
          simp [hid, hthr, hval]
        · simp [hq]
      rw [hcl, Finset.card_insert_of_not_mem hpnotin]
      have hbal := hinv.bal v hv
      rw [hacl, Finset.card_insert_of_not_mem hidnotin] at hbal
      omega
    · have hcl : (Finset.range srcL.length).filter
            (fun q => upd σ.res p (srcF srcL id) q = v)
          = (Finset.range srcL.length).filter (fun q => σ.res q = v) := by
        apply Finset.filter_congr
        intro q _
        dsimp only [upd]
        by_cases hq : q = p
        · subst hq
          rw [if_pos rfl, hres]
          exact iff_of_false (fun hh => hval hh) (fun hh => hv hh.symm)
        · rw [if_neg hq]
      have hacl : (Finset.range srcL.length).filter
            (fun id' => upd σ.thr id none id' ≠ none ∧ srcAt srcL id' = v)
          = (Finset.range srcL.length).filter
            (fun id' => σ.thr id' ≠ none ∧ srcAt srcL id' = v) := by
        apply Finset.filter_congr
        intro id' _
        dsimp only [upd]
        by_cases hq : id' = id
        · subst hq
          exact iff_of_false (fun hh => hval hh.2) (fun hh => hval hh.2)
        · rw [if_neg hq]
      rw [hcl, hacl]
      exact hinv.bal v hv

/-- A failed compare-and-swap with an in-bounds retry preserves the scatter
invariant. -/
lemma AInv_fail (srcL : List ℤ) (σ : AState) (hinv : AInv srcL σ) (id p : ℕ)
    (hid : id < srcL.length) (hthr : σ.thr id = some p) (hres : σ.res p ≠ -1)
    (hlt : p + 1 < srcL.length) :
    AInv srcL ⟨σ.res, upd σ.thr id (some (p + 1))⟩ := by
  obtain ⟨hid', hrp, hpN⟩ := hinv.thrB id p hthr
  constructor
  · intro q hne
    exact hinv.resRun q hne
  · intro id' p' hthr'
    dsimp only [upd] at hthr'
    by_cases hidq : id' = id
    · subst hidq
      rw [if_pos rfl] at hthr'
      have hp' : p' = p + 1 := by
        have := Option.some.inj hthr'
        omega
      subst hp'
      exact ⟨hid, by omega, hlt⟩
    · rw [if_neg hidq] at hthr'
      exact hinv.thrB id' p' hthr'
  · intro id' p' hthr' q hq1 hq2
    dsimp only [upd] at hthr'
    by_cases hidq : id' = id
    · rw [if_pos hidq] at hthr'
      have hp' : p + 1 = p' := Option.some.inj hthr'
      rw [hidq] at hq1
      by_cases hq : q = p
      · subst hq
        exact hres
      · exact hinv.thrP id p hthr q hq1 (by omega)
    · rw [if_neg hidq] at hthr'
      exact hinv.thrP id' p' hthr' q hq1 hq2
  · intro v hv
    dsimp only
    have hacl : (Finset.range srcL.length).filter
          (fun id' => upd σ.thr id (some (p + 1)) id' ≠ none ∧ srcAt srcL id' = v)
        = (Finset.range srcL.length).filter
          (fun id' => σ.thr id' ≠ none ∧ srcAt srcL id' = v) := by
      apply Finset.filter_congr
      intro id' _
      dsimp only [upd]
      by_cases hq : id' = id
      · subst hq
        rw [if_pos rfl, hthr]
        simp
      · rw [if_neg hq]
    rw [hacl]
    exact hinv.bal v hv

/-- No work item can exhaust the array bound: the drop transition is
unreachable from invariant states. -/
lemma AInv_no_drop (srcL : List ℤ) (σ : AState) (hinv : AInv srcL σ) (id p : ℕ)
    (hthr : σ.thr id = some p) (hres : σ.res p ≠ -1)
    (hge : ¬ p + 1 < srcL.length) : False := by
  obtain ⟨hid, hrp, hpN⟩ := hinv.thrB id p hthr
  have hrun := probe_in_run srcL σ hinv id p hthr
  have hval := slot_value srcL σ hinv (srcAt srcL id) p hres hrp hrun
  by_cases hv : srcAt srcL id = -1
  · exact hres (hval.trans hv)
  · have hsub : Finset.Ico (rnk srcL (srcAt srcL id)) (p + 1) ⊆
        (Finset.range srcL.length).filter (fun q => σ.res q = srcAt srcL id) := by
      intro q hq
      simp only [Finset.mem_Ico] at hq
      simp only [Finset.mem_filter, Finset.mem_range]
      refine ⟨by omega, ?_⟩
      by_cases hqp : q = p
      · subst hqp
        exact hval
      · have hocc : σ.res q ≠ -1 := hinv.thrP id p hthr q hq.1 (by omega)
        exact slot_value srcL σ hinv (srcAt srcL id) q hocc hq.1 (by omega)
    have hcard := Finset.card_le_card hsub
    rw [Nat.card_Ico] at hcard
    have hact : 1 ≤ ((Finset.range srcL.length).filter
        (fun id' => σ.thr id' ≠ none ∧ srcAt srcL id' = srcAt srcL id)).card := by
      refine Finset.card_pos.mpr ⟨id, ?_⟩
      simp only [Finset.mem_filter, Finset.mem_range]
      exact ⟨hid, by rw [hthr]; simp, by trivial⟩
    have hbal := hinv.bal (srcAt srcL id) hv
    have hle := rnk_add_mlt_le srcL (srcAt srcL id)
    omega

/-- Every scatter step preserves the invariant. -/
lemma AInv_step (srcL : List ℤ) (σ σ' : AState) (hinv : AInv srcL σ)
    (hstep : AStep (srcF srcL) srcL.length σ σ') : AInv srcL σ' := by
  cases hstep with
  | claim id p hid hthr hres => exact AInv_claim srcL σ hinv id p hid hthr hres
  | fail id p hid hthr hres hlt => exact AInv_fail srcL σ hinv id p hid hthr hres hlt
  | drop id p hid hthr hres hge =>
      exact absurd (AInv_no_drop srcL σ hinv id p hthr hres hge) not_false

/-- The invariant holds at the start of the scatter phase when the counts
buffer holds the ranks computed by the compare phase. -/
lemma AInv_init (srcL : List ℤ) : AInv srcL (initState (cntF srcL) srcL.length) := by
  constructor
  · intro q hne
    exact absurd rfl hne
  · intro id p hthr
    dsimp only [initState] at hthr
    by_cases hid : id < srcL.length
    · rw [if_pos hid] at hthr
      have hp : cntF srcL id = p := Option.some.inj hthr
      refine ⟨hid, ?_, ?_⟩
      · rw [← hp]; exact le_rfl
      · rw [← hp]; exact rnk_src_lt srcL id hid
    · rw [if_neg hid] at hthr
      exact absurd hthr (by simp)
  · intro id p hthr q hq1 hq2
    dsimp only [initState] at hthr
    by_cases hid : id < srcL.length
    · rw [if_pos hid] at hthr
      have hp : cntF srcL id = p := Option.some.inj hthr
      have : (cntF srcL id) = rnk srcL (srcAt srcL id) := rfl
      omega
    · rw [if_neg hid] at hthr
      exact absurd hthr (by simp)
  · intro v hv
    dsimp only [initState]
    have hcl : (Finset.range srcL.length).filter (fun _ => (-1 : ℤ) = v) = ∅ := by
      apply Finset.eq_empty_iff_forall_not_mem.mpr
      intro q hq
      simp only [Finset.mem_filter] at hq
      exact hv hq.2.symm
    have hacl : (Finset.range srcL.length).filter
          (fun id => (if id < srcL.length then some (cntF srcL id) else none) ≠ none
            ∧ srcAt srcL id = v)
        = (Finset.range srcL.length).filter (fun id => srcAt srcL id = v) := by
      apply Finset.filter_congr
      intro id hid
      simp only [Finset.mem_range] at hid
      rw [if_pos hid]
      simp
    rw [hcl, hacl, Finset.card_empty, card_filter_range, countP_range_eq_count]
    exact Nat.zero_add _

/-- Every reachable state of the scatter phase satisfies the invariant. -/
lemma AInv_reaches (srcL : List ℤ) (σ : AState)
    (h : Reaches (srcF srcL) (cntF srcL) srcL.length σ) : AInv srcL σ := by
  unfold Reaches at h
  induction h with
  | refl => exact AInv_init srcL
  | tail _ hbc ih => exact AInv_step srcL _ _ ih hbc

/-- When the scatter phase finishes, every result slot holds the value that
the sorted input has at that position. -/
lemma scatter_final (srcL : List ℤ) (σ : AState)
    (hr : Reaches (srcF srcL) (cntF srcL) srcL.length σ)
    (ht : Terminal srcL.length σ) :
    ∀ q, q < srcL.length → σ.res q = srcAt (merge_sort srcL) q := by
  have hinv := AInv_reaches srcL σ hr
  have hperm : (merge_sort srcL).Perm srcL := merge_sort_perm srcL
  have hlen : (merge_sort srcL).length = srcL.length := hperm.length_eq
  intro q hq
  have hqL : q < (merge_sort srcL).length := by omega
  have hbounds := sorted_run_bounds (merge_sort srcL) (merge_sort_sorted srcL) q hqL
  have hrnk : rnk (merge_sort srcL) (srcAt (merge_sort srcL) q)
      = rnk srcL (srcAt (merge_sort srcL) q) := hperm.countP_eq _
  have hmlt : mlt (merge_sort srcL) (srcAt (merge_sort srcL) q)
      = mlt srcL (srcAt (merge_sort srcL) q) := hperm.count_eq _
  rw [hrnk, hmlt] at hbounds
  by_cases hne : σ.res q = -1
  · by_cases hv : srcAt (merge_sort srcL) q = -1
    · rw [hne, hv]
    · exfalso
      have hact : (Finset.range srcL.length).filter
          (fun id => σ.thr id ≠ none ∧ srcAt srcL id = srcAt (merge_sort srcL) q) = ∅ := by
        apply Finset.eq_empty_iff_forall_not_mem.mpr
        intro id hmem
        simp only [Finset.mem_filter, Finset.mem_range] at hmem
        exact hmem.2.1 (ht id hmem.1)
      have hbal := hinv.bal (srcAt (merge_sort srcL) q) hv
      rw [hact, Finset.card_empty] at hbal
      have hsub : (Finset.range srcL.length).filter
            (fun q' => σ.res q' = srcAt (merge_sort srcL) q)
          ⊆ Finset.Ico (rnk srcL (srcAt (merge_sort srcL) q))
            (rnk srcL (srcAt (merge_sort srcL) q) + mlt srcL (srcAt (merge_sort srcL) q)) := by
        intro q' hmem
        simp only [Finset.mem_filter, Finset.mem_range] at hmem
        have hne' : σ.res q' ≠ -1 := by
          rw [hmem.2]
          exact hv
        obtain ⟨ha, hb⟩ := hinv.resRun q' hne'
        rw [hmem.2] at ha hb
        simp only [Finset.mem_Ico]
        exact ⟨ha, hb⟩
      have hICO := Finset.eq_of_subset_of_card_le hsub (by rw [Nat.card_Ico]; omega)
      have hqmem : q ∈ Finset.Ico (rnk srcL (srcAt (merge_sort srcL) q))
          (rnk srcL (srcAt (merge_sort srcL) q) + mlt srcL (srcAt (merge_sort srcL) q)) := by
        simp only [Finset.mem_Ico]
        exact hbounds
      rw [← hICO] at hqmem
      simp only [Finset.mem_filter, Finset.mem_range] at hqmem
      exact hv (hqmem.2.symm.trans hne)
  · exact slot_value srcL σ hinv (srcAt (merge_sort srcL) q) q hne hbounds.1 hbounds.2

/-- When the scatter phase finishes, the read-back results buffer is the
sorted input, as computed by the reference sorter. -/
lemma scatter_final_list (srcL : List ℤ) (σ : AState)
    (hr : Reaches (srcF srcL) (cntF srcL) srcL.length σ)
    (ht : Terminal srcL.length σ) :
    resList srcL.length σ = merge_sort srcL := by
  have hlen : (merge_sort srcL).length = srcL.length := (merge_sort_perm srcL).length_eq
  unfold resList
  rw [← map_srcAt_range (merge_sort srcL), hlen]
  apply List.map_congr_left
  intro q hq
  simp only [List.mem_range] at hq
  exact scatter_final srcL σ hr ht q hq

/-- Two counts buffers that agree on all work item ids start the scatter
phase in the same state. -/
lemma initState_congr (c1 c2 : ℕ → ℕ) (N : ℕ) (h : ∀ i, i < N → c1 i = c2 i) :
    initState c1 N = initState c2 N := by
  unfold initState
  congr 1
  funext id
  by_cases hid : id < N
  · rw [if_pos hid, if_pos hid, h id hid]
  · rw [if_neg hid, if_neg hid]

/-- Reachability only depends on the counts of actual work items. -/
lemma reaches_congr (src : ℕ → ℤ) (c1 c2 : ℕ → ℕ) (N : ℕ)
    (h : ∀ i, i < N → c1 i = c2 i) (σ : AState) (hr : Reaches src c1 N σ) :
    Reaches src c2 N σ := by
  unfold Reaches at *
  rw [← initState_congr c1 c2 N h]
  exact hr

/-- Bounds invariant of the scatter phase: every running work item probes in
the window from its preferred slot to the end of the array. -/
def BInv (counts : ℕ → ℕ) (N : ℕ) (σ : AState) : Prop :=
  ∀ id p, σ.thr id = some p → counts id ≤ p ∧ p < N

/-- Every scatter step preserves the bounds invariant. -/
lemma BInv_step (src : ℕ → ℤ) (counts : ℕ → ℕ) (N : ℕ) (σ σ' : AState)
    (hb : BInv counts N σ) (hs : AStep src N σ σ') : BInv counts N σ' := by
  cases hs with
  | claim id p hid hthr hres =>
      intro id' p' hthr'
      dsimp only [upd] at hthr'
      by_cases hq : id' = id
      · rw [if_pos hq] at hthr'
        exact absurd hthr' (by simp)
      · rw [if_neg hq] at hthr'
        exact hb id' p' hthr'
  | fail id p hid hthr hres hlt =>
      intro id' p' hthr'
      dsimp only [upd] at hthr'
      by_cases hq : id' = id
      · rw [if_pos hq] at hthr'
        have hp' : p + 1 = p' := Option.some.inj hthr'
        have hold := hb id p hthr
        rw [hq]
        omega
      · rw [if_neg hq] at hthr'
        exact hb id' p' hthr'
  | drop id p hid hthr hres hge =>
      intro id' p' hthr'
      dsimp only [upd] at hthr'
      by_cases hq : id' = id
      · rw [if_pos hq] at hthr'
        exact absurd hthr' (by simp)
      · rw [if_neg hq] at hthr'
        exact hb id' p' hthr'

/-- The bounds invariant holds initially when every preferred slot is in
range. -/
lemma BInv_init (counts : ℕ → ℕ) (N : ℕ) (h : ∀ id, id < N → counts id < N) :
    BInv counts N (initState counts N) := by
  intro id p hthr
  dsimp only [initState] at hthr
  by_cases hid : id < N
  · rw [if_pos hid] at hthr
    have h1 := Option.some.inj hthr
    have h2 := h id hid
    omega
  · rw [if_neg hid] at hthr
    exact absurd hthr (by simp)

/-- The bounds invariant holds in every reachable state of the scatter
phase. -/
lemma BInv_reaches (src : ℕ → ℤ) (counts : ℕ → ℕ) (N : ℕ) (σ : AState)
    (h : ∀ id, id < N → counts id < N) (hr : Reaches src counts N σ) :
    BInv counts N σ := by
  unfold Reaches at hr
  induction hr with
  | refl => exact BInv_init counts N h
  | tail _ hbc ih => exact BInv_step src counts N _ _ ih hbc

/-- Bound on the retry loop of `assign_kernel`: starting in bounds, the
number of iterations never exceeds the distance to the end of the array. -/
lemma probeIters_le (occ : ℕ → Bool) (N : ℕ) :
    ∀ c, c < N → probeIters occ N c ≤ N - c := by
  have aux : ∀ d c, N - c ≤ d → c < N → probeIters occ N c ≤ N - c := by
    intro d
    induction d with
    | zero =>
        intro c h1 h2
        omega
    | succ m ih =>
        intro c h1 h2
        rw [probeIters]
        by_cases ho : occ c
        · rw [if_pos ho]
          by_cases hlt : c + 1 < N
          · rw [dif_pos hlt]
            have := ih (c + 1) (by omega) hlt
            omega
          · rw [dif_neg hlt]
            omega
        · rw [if_neg ho]
          omega
  exact fun c hc => aux (N - c) c le_rfl hc

/-- Evaluating the reference sorter through sortedness and permutation. -/
lemma merge_sort_eval (l L : List ℤ) (hp : l.Perm L)
    (hs : L.Sorted (fun a b => a ≤ b)) : merge_sort l = L :=
  List.eq_of_perm_of_sorted ((merge_sort_perm l).trans hp) (merge_sort_sorted l) hs

/-- C2: after the compare kernel completes over the full N x N grid on a
zero-initialized counts array, in whatever execution order, `counts[i]` is
the number of indices `j` with `source[j] < source[i]`. -/
theorem compare_counts_smaller (srcL : List ℤ) (ps : List (ℕ × ℕ))
    (hps : ps.Perm (allPairs srcL.length)) (i : ℕ) (hi : i < srcL.length) :
    (runCompare srcL ps (List.replicate srcL.length 0)).getD i 0
      = (List.range srcL.length).countP (fun j => decide (srcAt srcL j < srcAt srcL i)) := by
  rw [runCompare_allPairs srcL ps hps i hi]
  exact (countP_range_srcAt srcL (fun x => decide (x < srcAt srcL i))).symm

/-- Witness for C2 on the input `[4, 2]` with the grid executed in reverse
order. -/
theorem compare_counts_smaller_witness :
    ((allPairs 2).reverse.Perm (allPairs ([4, 2] : List ℤ).length))
    ∧ (runCompare [4, 2] (allPairs 2).reverse
          (List.replicate ([4, 2] : List ℤ).length 0)).getD 0 0
      = (List.range ([4, 2] : List ℤ).length).countP
          (fun j => decide (srcAt [4, 2] j < srcAt [4, 2] 0)) :=
  ⟨by decide, compare_counts_smaller [4, 2] (allPairs 2).reverse (by decide) 0 (by decide)⟩

/-- C1: for a non-empty input, running the compare kernel and then any
complete interleaving of the assign kernel yields a results buffer that is a
permutation of the input and ascending at every adjacent pair. -/
theorem rank_sort_perm_and_sorted (srcL : List ℤ) (hne : srcL ≠ [])
    (countsL : List ℕ)
    (hcmp : countsL = runCompare srcL (allPairs srcL.length) (List.replicate srcL.length 0))
    (σ : AState)
    (hr : Reaches (srcF srcL) (fun i => countsL.getD i 0) srcL.length σ)
    (ht : Terminal srcL.length σ) :
    (resList srcL.length σ).Perm srcL
    ∧ ∀ k, k + 1 < srcL.length → σ.res k ≤ σ.res (k + 1) := by
  have hag : ∀ i, i < srcL.length → countsL.getD i 0 = cntF srcL i := by
    intro i hi
    rw [hcmp]
    exact runCompare_allPairs srcL (allPairs srcL.length) (List.Perm.refl _) i hi
  have hr' : Reaches (srcF srcL) (cntF srcL) srcL.length σ :=
    reaches_congr (srcF srcL) _ _ srcL.length hag σ hr
  have hfin := scatter_final_list srcL σ hr' ht
  have hlen : (merge_sort srcL).length = srcL.length := (merge_sort_perm srcL).length_eq
  constructor
  · rw [hfin]
    exact merge_sort_perm srcL
  · intro k hk
    have h1 := scatter_final srcL σ hr' ht k (by omega)
    have h2 := scatter_final srcL σ hr' ht (k + 1) (by omega)
    rw [h1, h2, srcAt_eq_getElem _ k (by omega), srcAt_eq_getElem _ (k + 1) (by omega)]
    exact List.pairwise_iff_getElem.mp (merge_sort_sorted srcL) k (k + 1)
      (by omega) (by omega) (by omega)

/-- Concrete run for the witness of C1: input `[2, 1]`, counts `[1, 0]`. -/
def w1init : AState := initState (fun i => ([1, 0] : List ℕ).getD i 0) 2

/-- After work item 0 claims slot 1. -/
def w1mid : AState := ⟨upd w1init.res 1 (srcF [2, 1] 0), upd w1init.thr 0 none⟩

/-- After work item 1 claims slot 0: the scatter phase is finished. -/
def w1fin : AState := ⟨upd w1mid.res 0 (srcF [2, 1] 1), upd w1mid.thr 1 none⟩

/-- Witness for C1: an explicit complete interleaving on the input `[2, 1]`
whose result is a sorted permutation of the input. -/
theorem rank_sort_perm_and_sorted_witness :
    (resList ([2, 1] : List ℤ).length w1fin).Perm [2, 1]
    ∧ ∀ k, k + 1 < ([2, 1] : List ℤ).length → w1fin.res k ≤ w1fin.res (k + 1) :=
  rank_sort_perm_and_sorted [2, 1] (by decide) [1, 0] (by decide) w1fin
    (Relation.ReflTransGen.tail
      (Relation.ReflTransGen.tail Relation.ReflTransGen.refl
        (AStep.claim w1init 0 1 (by decide) (by decide) (by decide)))
      (AStep.claim w1mid 1 0 (by decide) (by decide) (by decide)))
    (by unfold Terminal; decide)

/-- C3: on inputs without duplicate values, the accelerator rank sort result
equals the output of the sequential merge sort, element by element. -/
theorem rank_sort_matches_merge_sort (srcL : List ℤ) (hnd : srcL.Nodup)
    (countsL : List ℕ)
    (hcmp : countsL = runCompare srcL (allPairs srcL.length) (List.replicate srcL.length 0))
    (σ : AState)
    (hr : Reaches (srcF srcL) (fun i => countsL.getD i 0) srcL.length σ)
    (ht : Terminal srcL.length σ) :
    resList srcL.length σ = merge_sort srcL := by
  have hag : ∀ i, i < srcL.length → countsL.getD i 0 = cntF srcL i := by
    intro i hi
    rw [hcmp]
    exact runCompare_allPairs srcL (allPairs srcL.length) (List.Perm.refl _) i hi
  have hr' : Reaches (srcF srcL) (cntF srcL) srcL.length σ :=
    reaches_congr (srcF srcL) _ _ srcL.length hag σ hr
  exact scatter_final_list srcL σ hr' ht

/-- Concrete run for the witness of C3: input `[3, 1, 2]`, counts
`[2, 0, 1]`. -/
def w3a : AState := initState (fun i => ([2, 0, 1] : List ℕ).getD i 0) 3

/-- After work item 0 claims slot 2. -/
def w3b : AState := ⟨upd w3a.res 2 (srcF [3, 1, 2] 0), upd w3a.thr 0 none⟩

/-- After work item 1 claims slot 0. -/
def w3c : AState := ⟨upd w3b.res 0 (srcF [3, 1, 2] 1), upd w3b.thr 1 none⟩

/-- After work item 2 claims slot 1: the scatter phase is finished. -/
def w3d : AState := ⟨upd w3c.res 1 (srcF [3, 1, 2] 2), upd w3c.thr 2 none⟩

/-- Witness for C3: an explicit complete interleaving on the duplicate-free
input `[3, 1, 2]` whose result equals the merge sort of the input. -/
theorem rank_sort_matches_merge_sort_witness :
    resList ([3, 1, 2] : List ℤ).length w3d = merge_sort [3, 1, 2] :=
  rank_sort_matches_merge_sort [3, 1, 2] (by decide) [2, 0, 1] (by decide) w3d
    (Relation.ReflTransGen.tail
      (Relation.ReflTransGen.tail
        (Relation.ReflTransGen.tail Relation.ReflTransGen.refl
          (AStep.claim w3a 0 2 (by decide) (by decide) (by decide)))
        (AStep.claim w3b 1 0 (by decide) (by decide) (by decide)))
      (AStep.claim w3c 2 1 (by decide) (by decide) (by decide)))
    (by unfold Terminal; decide)

/-- Counterexample for C4: when the two front elements are equal, the
`merge` of src/main.rs takes the RIGHT run's element first (its branch fires
only on a strict `<`), so merging is not left-biased: at `[3, 1]` and
`[3, 5]` the produced list differs from the left-first merge. -/
theorem merge_tie_left_cex :
    merge [3, 1] [3, 5] = [3, 3, 1, 5]
    ∧ (3 : ℤ) :: merge [1] [3, 5] = [3, 1, 3, 5]
    ∧ merge [3, 1] [3, 5] ≠ (3 : ℤ) :: merge [1] [3, 5] := by
  refine ⟨by norm_num [merge], by norm_num [merge], ?_⟩
  have h1 : merge [3, 1] [3, 5] = ([3, 3, 1, 5] : List ℤ) := by norm_num [merge]
  have h2 : (3 : ℤ) :: merge [1] [3, 5] = ([3, 1, 3, 5] : List ℤ) := by norm_num [merge]
  rw [h1, h2]
  decide

/-- C4 amended: whenever the front elements of the two runs are equal (more
generally whenever the left front is not strictly smaller), `merge` takes the
front of the RIGHT run first. -/
theorem merge_tie_right (x y : ℤ) (xs ys : List ℤ) (h : x = y) :
    merge (x :: xs) (y :: ys) = y :: merge (x :: xs) ys := by
  subst h
  simp only [merge]
  rw [if_neg (lt_irrefl x)]

/-- Witness for the amended C4 at equal fronts `3`. -/
theorem merge_tie_right_witness :
    ((3 : ℤ) = 3) ∧ merge [3, 1] [3, 5] = (3 : ℤ) :: merge [3, 1] [5] :=
  ⟨rfl, merge_tie_right 3 3 [1] [5] rfl⟩

/-- C5 (code bug): on profiling timestamps where the two kernels have
different durations — compare event (0, 10), assign event (10, 15) — the
program reports 20 ns (twice the compare delta, because lines 214-215 of
src/main.rs read the compare kernel's event for the assign timestamps) while
the specified sum of per-kernel deltas is 15 ns. -/
theorem duration_misreports_assign :
    parallelDuration (0, 10) (10, 15) = 20
    ∧ specDuration (0, 10) (10, 15) = 15
    ∧ parallelDuration (0, 10) (10, 15) ≠ specDuration (0, 10) (10, 15) := by
  refine ⟨rfl, rfl, by decide⟩

/-- C6: on the input `[5, 3, 3, 1]` the compare kernel produces the counts
`[3, 1, 1, 0]`, and every complete interleaving of the assign kernel then
produces the result `[1, 3, 3, 5]`. -/
theorem scenario_a :
    runCompare [5, 3, 3, 1] (allPairs 4) (List.replicate 4 0) = [3, 1, 1, 0]
    ∧ ∀ σ : AState,
        Reaches (srcF [5, 3, 3, 1]) (fun i => ([3, 1, 1, 0] : List ℕ).getD i 0) 4 σ →
        Terminal 4 σ → resList 4 σ = [1, 3, 3, 5] := by
  constructor
  · decide
  · intro σ hr ht
    have hag : ∀ i, i < ([5, 3, 3, 1] : List ℤ).length →
        ([3, 1, 1, 0] : List ℕ).getD i 0 = cntF [5, 3, 3, 1] i := by decide
    have hr' : Reaches (srcF [5, 3, 3, 1]) (cntF [5, 3, 3, 1])
        ([5, 3, 3, 1] : List ℤ).length σ :=
      reaches_congr (srcF [5, 3, 3, 1]) _ _ _ hag σ hr
    have hfin := scatter_final_list [5, 3, 3, 1] σ hr' ht
    have hms : merge_sort [5, 3, 3, 1] = [1, 3, 3, 5] :=
      merge_sort_eval [5, 3, 3, 1] [1, 3, 3, 5] (by decide) (by decide)
    rw [← hms]
    exact hfin

/-- Concrete run for the witness of C6: input `[5, 3, 3, 1]`, counts
`[3, 1, 1, 0]`. -/
def w6a : AState := initState (fun i => ([3, 1, 1, 0] : List ℕ).getD i 0) 4

/-- After work item 0 claims slot 3. -/
def w6b : AState := ⟨upd w6a.res 3 (srcF [5, 3, 3, 1] 0), upd w6a.thr 0 none⟩

/-- After work item 1 claims slot 1. -/
def w6c : AState := ⟨upd w6b.res 1 (srcF [5, 3, 3, 1] 1), upd w6b.thr 1 none⟩

/-- After work item 2 fails its compare-and-swap at the occupied slot 1 and
retries at slot 2. -/
def w6d : AState := ⟨w6c.res, upd w6c.thr 2 (some 2)⟩

/-- After work item 2 claims slot 2. -/
def w6e : AState := ⟨upd w6d.res 2 (srcF [5, 3, 3, 1] 2), upd w6d.thr 2 none⟩

/-- After work item 3 claims slot 0: the scatter phase is finished. -/
def w6f : AState := ⟨upd w6e.res 0 (srcF [5, 3, 3, 1] 3), upd w6e.thr 3 none⟩

/-- Witness for C6: an explicit complete interleaving on `[5, 3, 3, 1]`
(including one compare-and-swap collision between the equal elements)
reaching the result `[1, 3, 3, 5]`. -/
theorem scenario_a_witness : resList 4 w6f = [1, 3, 3, 5] :=
  scenario_a.2 w6f
    (Relation.ReflTransGen.tail
      (Relation.ReflTransGen.tail
        (Relation.ReflTransGen.tail
          (Relation.ReflTransGen.tail
            (Relation.ReflTransGen.tail Relation.ReflTransGen.refl
              (AStep.claim w6a 0 3 (by decide) (by decide) (by decide)))
            (AStep.claim w6b 1 1 (by decide) (by decide) (by decide)))
          (AStep.fail w6c 2 1 (by decide) (by decide) (by decide) (by decide)))
        (AStep.claim w6d 2 2 (by decide) (by decide) (by decide)))
      (AStep.claim w6e 3 0 (by decide) (by decide) (by decide)))
    (by unfold Terminal; decide)

/-- C7: the orchestration's wait lists are exactly the four-stage dependency
chain of src/main.rs (lines 151-199), and any execution order that respects
them runs the uploads before the compare kernel, the compare kernel before
the assign kernel, and both kernels before the read-back. -/
theorem dependency_chain :
    (waits OStage.compareK = [OStage.srcUpload, OStage.cntUpload]
      ∧ waits OStage.assignK = [OStage.resUpload, OStage.compareK]
      ∧ waits OStage.readBack = [OStage.compareK, OStage.assignK]
      ∧ waits OStage.srcUpload = [] ∧ waits OStage.cntUpload = []
      ∧ waits OStage.resUpload = [])
    ∧ ∀ ord : OStage → ℕ, (∀ s t, t ∈ waits s → ord t < ord s) →
        ord OStage.srcUpload < ord OStage.compareK
        ∧ ord OStage.cntUpload < ord OStage.compareK
        ∧ ord OStage.resUpload < ord OStage.assignK
        ∧ ord OStage.compareK < ord OStage.assignK
        ∧ ord OStage.compareK < ord OStage.readBack
        ∧ ord OStage.assignK < ord OStage.readBack := by
  refine ⟨⟨rfl, rfl, rfl, rfl, rfl, rfl⟩, ?_⟩
  intro ord h
  refine ⟨h OStage.compareK OStage.srcUpload (by simp [waits]),
    h OStage.compareK OStage.cntUpload (by simp [waits]),
    h OStage.assignK OStage.resUpload (by simp [waits]),
    h OStage.assignK OStage.compareK (by simp [waits]),
    h OStage.readBack OStage.compareK (by simp [waits]),
    h OStage.readBack OStage.assignK (by simp [waits])⟩

/-- A schedule that runs the six stages in program order. -/
def ordW : OStage → ℕ
  | OStage.srcUpload => 0
  | OStage.cntUpload => 1
  | OStage.resUpload => 2
  | OStage.compareK => 3
  | OStage.assignK => 4
  | OStage.readBack => 5

/-- Witness for C7: the program-order schedule respects every wait list, and
the chain ordering follows. -/
theorem dependency_chain_witness :
    (∀ s t, t ∈ waits s → ordW t < ordW s)
    ∧ (ordW OStage.srcUpload < ordW OStage.compareK
        ∧ ordW OStage.cntUpload < ordW OStage.compareK
        ∧ ordW OStage.resUpload < ordW OStage.assignK
        ∧ ordW OStage.compareK < ordW OStage.assignK
        ∧ ordW OStage.compareK < ordW OStage.readBack
        ∧ ordW OStage.assignK < ordW OStage.readBack) :=
  ⟨by decide, dependency_chain.2 ordW (by decide)⟩

/-- C8: for a work item whose preferred slot `c = counts[id]` is in bounds,
the retry loop of `assign_kernel` terminates after at most `N - c`
iterations, whatever the per-slot compare-and-swap outcomes; and when the
first compare-and-swap succeeds there is exactly one iteration. -/
theorem probe_loop_bound (occ : ℕ → Bool) (N c : ℕ) (h : c < N) :
    probeIters occ N c ≤ N - c
    ∧ (occ c = false → probeIters occ N c = 1) := by
  refine ⟨probeIters_le occ N c h, ?_⟩
  intro ho
  rw [probeIters, ho]
  simp

/-- Witness for C8: all slots occupied, `N = 3`, first probe at slot 1. -/
theorem probe_loop_bound_witness :
    (1 < 3)
    ∧ (probeIters (fun _ => true) 3 1 ≤ 3 - 1
        ∧ ((fun _ => true : ℕ → Bool) 1 = false → probeIters (fun _ => true) 3 1 = 1)) :=
  ⟨by decide, probe_loop_bound (fun _ => true) 3 1 (by decide)⟩

/-- When the pipeline aborts at a failing operation, the sort call returns
no result and the produced error is that operation's failure value. -/
lemma orchErrCase (ok : OclOp → Bool) (code : OclOp → ℤ) (res : List ℤ) (op : OclOp)
    (hrun : runOrchestration ok code res = Except.error (failureOf (code op) op))
    (hop : ok op = false) :
    ((∃ o, ok o = false) →
      (∀ r, runOrchestration ok code res ≠ Except.ok r)
      ∧ ∃ o, runOrchestration ok code res = Except.error (failureOf (code o) o)
          ∧ ok o = false)
    ∧ (∀ r, runOrchestration ok code res = Except.ok r → r = res ∧ ∀ o, ok o = true)
    ∧ (∀ o o' : OclOp, OclFailure.panicMsg o = OclFailure.panicMsg o' → o = o')
    ∧ (∀ c : ℤ, failureOf c OclOp.enqCompare = OclFailure.clError c
        ∧ failureOf c OclOp.enqAssign = OclFailure.clError c
        ∧ failureOf c OclOp.enqRead = OclFailure.clError c
        ∧ failureOf c OclOp.waitRead = OclFailure.clError c) := by
  refine ⟨fun _ => ⟨fun r hr => ?_, ⟨op, hrun, hop⟩⟩, fun r hr => ?_,
    fun o o' h => ?_, fun c => ⟨rfl, rfl, rfl, rfl⟩⟩
  · rw [hrun] at hr
    exact Except.noConfusion hr
  · rw [hrun] at hr
    exact Except.noConfusion hr
  · injection h

/-- C9 amended: every failure of a fallible operation aborts the whole sort
call with an error and no partial result is ever returned (a returned value
means every operation succeeded and is the full read-back); the creation,
build and buffer-write failures abort with a stage-identifying panic message
(distinct per operation), while the kernel-enqueue, read-enqueue and wait
failures propagate only the bare OpenCL status code, which carries no stage
identity. -/
theorem orchestration_no_partial_result (ok : OclOp → Bool) (code : OclOp → ℤ)
    (res : List ℤ) :
    ((∃ o, ok o = false) →
      (∀ r, runOrchestration ok code res ≠ Except.ok r)
      ∧ ∃ o, runOrchestration ok code res = Except.error (failureOf (code o) o)
          ∧ ok o = false)
    ∧ (∀ r, runOrchestration ok code res = Except.ok r → r = res ∧ ∀ o, ok o = true)
    ∧ (∀ o o' : OclOp, OclFailure.panicMsg o = OclFailure.panicMsg o' → o = o')
    ∧ (∀ c : ℤ, failureOf c OclOp.enqCompare = OclFailure.clError c
        ∧ failureOf c OclOp.enqAssign = OclFailure.clError c
        ∧ failureOf c OclOp.enqRead = OclFailure.clError c
        ∧ failureOf c OclOp.waitRead = OclFailure.clError c) := by
  by_cases h1 : ok OclOp.buildCompareProg = true
  case neg =>
    exact orchErrCase ok code res _
      (by unfold runOrchestration
          rw [if_neg h1])
      (by simpa using h1)
  by_cases h2 : ok OclOp.createCompareKernel = true
  case neg =>
    exact orchErrCase ok code res _
      (by unfold runOrchestration
          rw [if_pos h1, if_neg h2])
      (by simpa using h2)
  by_cases h3 : ok OclOp.buildAssignProg = true
  case neg =>
    exact orchErrCase ok code res _
      (by unfold runOrchestration
          rw [if_pos h1, if_pos h2, if_neg h3])
      (by simpa using h3)
  by_cases h4 : ok OclOp.createAssignKernel = true
  case neg =>
    exact orchErrCase ok code res _
      (by unfold runOrchestration
          rw [if_pos h1, if_pos h2, if_pos h3, if_neg h4])
      (by simpa using h4)
  by_cases h5 : ok OclOp.mkInputBuf = true
  case neg =>
    exact orchErrCase ok code res _
      (by unfold runOrchestration
          rw [if_pos h1, if_pos h2, if_pos h3, if_pos h4, if_neg h5])
      (by simpa using h5)
  by_cases h6 : ok OclOp.mkCountBuf = true
  case neg =>
    exact orchErrCase ok code res _
      (by unfold runOrchestration
          rw [if_pos h1, if_pos h2, if_pos h3, if_pos h4, if_pos h5, if_neg h6])
      (by simpa using h6)
  by_cases h7 : ok OclOp.mkResultBuf = true
  case neg =>
    exact orchErrCase ok code res _
      (by unfold runOrchestration
          rw [if_pos h1, if_pos h2, if_pos h3, if_pos h4, if_pos h5, if_pos h6, if_neg h7])
      (by simpa using h7)
  by_cases h8 : ok OclOp.writeInput = true
  case neg =>
    exact orchErrCase ok code res _
      (by unfold runOrchestration
          rw [if_pos h1, if_pos h2, if_pos h3, if_pos h4, if_pos h5, if_pos h6, if_pos h7, if_neg h8])
      (by simpa using h8)
  by_cases h9 : ok OclOp.writeCount = true
  case neg =>
    exact orchErrCase ok code res _
      (by unfold runOrchestration
          rw [if_pos h1, if_pos h2, if_pos h3, if_pos h4, if_pos h5, if_pos h6, if_pos h7, if_pos h8, if_neg h9])
      (by simpa using h9)
  by_cases h10 : ok OclOp.writeResult = true
  case neg =>
    exact orchErrCase ok code res _
      (by unfold runOrchestration
          rw [if_pos h1, if_pos h2, if_pos h3, if_pos h4, if_pos h5, if_pos h6, if_pos h7, if_pos h8, if_pos h9, if_neg h10])
      (by simpa using h10)
  by_cases h11 : ok OclOp.enqCompare = true
  case neg =>
    exact orchErrCase ok code res _
      (by unfold runOrchestration
          rw [if_pos h1, if_pos h2, if_pos h3, if_pos h4, if_pos h5, if_pos h6, if_pos h7, if_pos h8, if_pos h9, if_pos h10, if_neg h11])
      (by simpa using h11)
  by_cases h12 : ok OclOp.enqAssign = true
  case neg =>
    exact orchErrCase ok code res _
      (by unfold runOrchestration
          rw [if_pos h1, if_pos h2, if_pos h3, if_pos h4, if_pos h5, if_pos h6, if_pos h7, if_pos h8, if_pos h9, if_pos h10, if_pos h11, if_neg h12])
      (by simpa using h12)
  by_cases h13 : ok OclOp.enqRead = true
  case neg =>
    exact orchErrCase ok code res _
      (by unfold runOrchestration
          rw [if_pos h1, if_pos h2, if_pos h3, if_pos h4, if_pos h5, if_pos h6, if_pos h7, if_pos h8, if_pos h9, if_pos h10, if_pos h11, if_pos h12, if_neg h13])
      (by simpa using h13)
  by_cases h14 : ok OclOp.waitRead = true
  case neg =>
    exact orchErrCase ok code res _
      (by unfold runOrchestration
          rw [if_pos h1, if_pos h2, if_pos h3, if_pos h4, if_pos h5, if_pos h6, if_pos h7, if_pos h8, if_pos h9, if_pos h10, if_pos h11, if_pos h12, if_pos h13, if_neg h14])
      (by simpa using h14)
  have hrun : runOrchestration ok code res = Except.ok res := by
    unfold runOrchestration
    rw [if_pos h1, if_pos h2, if_pos h3, if_pos h4, if_pos h5, if_pos h6, if_pos h7, if_pos h8, if_pos h9, if_pos h10, if_pos h11, if_pos h12, if_pos h13, if_pos h14]
  refine ⟨fun hex => ?_, fun r hr => ?_, fun o o' h => ?_,
    fun c => ⟨rfl, rfl, rfl, rfl⟩⟩
  · obtain ⟨op, hop⟩ := hex
    cases op <;> simp_all
  · rw [hrun] at hr
    refine ⟨(Except.ok.inj hr).symm, fun op => ?_⟩
    cases op <;> assumption
  · injection h

/-- An environment where only the compare-kernel enqueue fails. -/
def okFailEnqCompare : OclOp → Bool := fun op => decide (op ≠ OclOp.enqCompare)

/-- An environment where only the assign-kernel enqueue fails. -/
def okFailEnqAssign : OclOp → Bool := fun op => decide (op ≠ OclOp.enqAssign)

/-- Every failing call reports the OpenCL status `-5` (out of resources). -/
def clStatus : OclOp → ℤ := fun _ => -5

/-- Counterexample for C9: the compare-kernel enqueue (line 179 of
src/main.rs) and the assign-kernel enqueue (line 191) propagate their
failures through the `?` operator as a bare OpenCL error; when either fails
with the same status `-5`, the sort call aborts with the SAME error value,
so the error does not identify the failing stage as the claim states. -/
theorem orchestration_error_identity_cex :
    runOrchestration okFailEnqCompare clStatus [7]
      = Except.error (OclFailure.clError (-5))
    ∧ runOrchestration okFailEnqAssign clStatus [7]
      = Except.error (OclFailure.clError (-5))
    ∧ okFailEnqCompare OclOp.enqCompare = false
    ∧ okFailEnqAssign OclOp.enqCompare = true
    ∧ okFailEnqAssign OclOp.enqAssign = false :=
  ⟨rfl, rfl, rfl, rfl, rfl⟩

/-- An environment where only the input-buffer allocation fails. -/
def okW : OclOp → Bool := fun op => decide (op ≠ OclOp.mkInputBuf)

/-- Witness for the amended C9: with the input-buffer allocation failing,
the sort call returns no result and aborts with that stage's failure. -/
theorem orchestration_no_partial_result_witness :
    (∀ r, runOrchestration okW clStatus [7] ≠ Except.ok r)
    ∧ ∃ op, runOrchestration okW clStatus [7]
        = Except.error (failureOf (clStatus op) op) ∧ okW op = false :=
  (orchestration_no_partial_result okW clStatus [7]).1 ⟨OclOp.mkInputBuf, by decide⟩

/-- C10: whenever the counts buffer sends every work item's first probe
inside the array, every slot index the retry loop of `assign_kernel` reads
or compare-and-swaps in any reachable state lies between the item's
preferred slot and `N - 1`. -/
theorem scatter_probes_in_bounds (counts : ℕ → ℕ) (N : ℕ) (src : ℕ → ℤ)
    (hc : ∀ id, id < N → counts id < N)
    (σ : AState) (hr : Reaches src counts N σ) :
    ∀ id p, σ.thr id = some p → counts id ≤ p ∧ p < N :=
  BInv_reaches src counts N σ hc hr

/-- Witness for C10 at the initial state of a one-item scatter. -/
theorem scatter_probes_in_bounds_witness :
    (fun _ => 0 : ℕ → ℕ) 0 ≤ 0 ∧ 0 < 1 :=
  scatter_probes_in_bounds (fun _ => 0) 1 (fun _ => 7) (by decide)
    (initState (fun _ => 0) 1) Relation.ReflTransGen.refl 0 0 (by decide)
